import Mathlib

/-!
Verification of the schemafy expander (`schemafy_lib/src/lib.rs`)

This file gives a shallow embedding of the schema-to-Rust-types generator
("the Expander") and settles the frozen claims about it.

Conventions of the embedding:

* The `Schema` struct itself is generated code (module `schema`, not part of
  the analysed sources); its shape is modelled from the spec's data model
  (§3) and from every field access the expander performs.
* JSON values (`serde_json::Value`) are modelled by `JValue`; for arrays and
  objects only the element count is retained, since the expander inspects
  values only by kind plus one comparison against the empty object.
* Panics in the Rust code (`panic!`, `.expect`, `.unwrap`) are modelled as
  `Except.error` values of `GenError`; the generator aborts on the first one.
* The Rust recursion can diverge on cyclic or self-referential schemas, so
  every recursive expander function takes explicit fuel and returns
  `GenError.fuelOut` when it runs out; claims about completed runs carry a
  success hypothesis, concrete witnesses run with ample fuel.
* `Inflector::to_pascal_case` / `to_snake_case` and the `uriparse` fragment
  extraction are external library calls; they are modelled from their
  observable behaviour, reproducing all inputs exercised by the crate's own
  test suite (see the `example` checks below their definitions).
* Character classes (`is_alphanumeric`, `is_numeric`) are modelled on the
  ASCII fragment, which covers every identifier the claims involve.
-/

/-- Kinds of JSON values (`serde_json::Value`), keeping only the element
count for arrays and objects. -/
inductive JValue where
  | null
  | bool (b : Bool)
  | num (n : Int)
  | str (s : String)
  | arr (n : Nat)
  | obj (n : Nat)
deriving DecidableEq, Repr

/-- `schemafy_lib::schema::SimpleTypes` (JSON Schema draft-4 type names). -/
inductive SimpleTypes where
  | array
  | boolean
  | integer
  | null
  | number
  | object
  | string
deriving DecidableEq, Repr

/-- The non-recursive fields of a schema node. -/
structure SMeta where
  type_ : List SimpleTypes
  required : Option (List String)
  ref_ : Option String
  enum_ : Option (List JValue)
  enum_names : Option (List String)
  default : Option JValue
  description : Option String
  id : Option String
  title : Option String
deriving DecidableEq, Repr

mutual
/-- One schema node (`schemafy_lib::schema::Schema`): the meta fields plus the
recursive parts. `properties`, `pattern_properties` and `definitions` are
`BTreeMap`s in Rust; they are modelled as key-sorted association lists. -/
inductive Schema where
  | mk (meta : SMeta) (properties : List (String × Schema)) (items : List Schema)
      (allOf : Option (List Schema)) (oneOf : Option (List Schema))
      (anyOf : Option (List Schema)) (addProps : Option AddProps)
      (patternProps : List (String × Schema)) (definitions : List (String × Schema))

/-- `additionalProperties` as the expander sees it: a JSON bool, a JSON object
(deserialised back into a schema), or any other JSON value. -/
inductive AddProps where
  | bool (b : Bool)
  | schema (s : Schema)
  | nonObject
end

def Schema.meta : Schema → SMeta
  | .mk m _ _ _ _ _ _ _ _ => m

def Schema.properties : Schema → List (String × Schema)
  | .mk _ p _ _ _ _ _ _ _ => p

def Schema.items : Schema → List Schema
  | .mk _ _ i _ _ _ _ _ _ => i

def Schema.all_of : Schema → Option (List Schema)
  | .mk _ _ _ a _ _ _ _ _ => a

def Schema.one_of : Schema → Option (List Schema)
  | .mk _ _ _ _ o _ _ _ _ => o

def Schema.any_of : Schema → Option (List Schema)
  | .mk _ _ _ _ _ y _ _ _ => y

def Schema.additional_properties : Schema → Option AddProps
  | .mk _ _ _ _ _ _ ap _ _ => ap

def Schema.pattern_properties : Schema → List (String × Schema)
  | .mk _ _ _ _ _ _ _ pp _ => pp

def Schema.definitions : Schema → List (String × Schema)
  | .mk _ _ _ _ _ _ _ _ d => d

def Schema.type_ (s : Schema) : List SimpleTypes := s.meta.type_
def Schema.required (s : Schema) : Option (List String) := s.meta.required
def Schema.ref_ (s : Schema) : Option String := s.meta.ref_
def Schema.enum_ (s : Schema) : Option (List JValue) := s.meta.enum_
def Schema.enum_names (s : Schema) : Option (List String) := s.meta.enum_names
def Schema.default (s : Schema) : Option JValue := s.meta.default
def Schema.description (s : Schema) : Option String := s.meta.description
def Schema.id (s : Schema) : Option String := s.meta.id
def Schema.title (s : Schema) : Option String := s.meta.title

/-- The all-empty meta record (every keyword absent). -/
def emptyMeta : SMeta := ⟨[], none, none, none, none, none, none, none, none⟩

/-- The all-empty schema node (`{}`). -/
def emptySchema : Schema := .mk emptyMeta [] [] none none none none [] []

/-! ## Identifier sanitisation (`str_to_ident` and helpers) -/

/-- `replace_invalid_identifier_chars`: strip one leading `$`, then replace
every character that is not alphanumeric or `_` by `_`. -/
def replace_invalid_identifier_chars (s : String) : String :=
  let l := match s.data with
    | '$' :: rest => rest
    | l => l
  String.mk (l.map (fun c => if c.isAlphanum || c = '_' then c else '_'))

/-- `replace_numeric_start`: prepend `_` when the first character is a digit. -/
def replace_numeric_start (s : String) : String :=
  match s.data with
  | c :: _ => if c.isDigit then String.mk ('_' :: s.data) else s
  | [] => s

/-- The character scan of `remove_excess_underscores`: drop a `_` when the
next character is also `_`. -/
def collapseUnderscores : List Char → List Char
  | [] => []
  | c :: rest =>
    if c = '_' ∧ rest.head? = some '_' then collapseUnderscores rest
    else c :: collapseUnderscores rest

/-- `remove_excess_underscores`: collapse each run of `_` to a single `_`. -/
def remove_excess_underscores (s : String) : String :=
  String.mk (collapseUnderscores s.data)

/-- The reserved-word list hard-coded in `str_to_ident`. -/
def rustKeywords : List String :=
  ["as", "break", "const", "continue", "crate", "else", "enum", "extern",
   "false", "fn", "for", "if", "impl", "in", "let", "loop", "match", "mod",
   "move", "mut", "pub", "ref", "return", "self", "static", "struct", "super",
   "trait", "true", "type", "unsafe", "use", "where", "while", "abstract",
   "become", "box", "do", "final", "macro", "override", "priv", "typeof",
   "unsized", "virtual", "yield", "async", "await", "try"]

/-- The transform pipeline of `str_to_ident`: strip `$`, replace invalid
characters, prefix a leading digit, collapse underscore runs. -/
def sanitizePipeline (s : String) : String :=
  remove_excess_underscores (replace_numeric_start
    (replace_invalid_identifier_chars s))

/-- `str_to_ident`, with the produced `syn::Ident` modelled by its text. -/
def str_to_ident (s : String) : String :=
  if s.data = [] then "empty_"
  else if s.data.all (fun c => c = '_') then "underscore_"
  else
    let t := sanitizePipeline s
    if t.data = [] then "invalid_"
    else if rustKeywords.contains t then t ++ "_"
    else t

/-! ## Case conversion (the `Inflector` crate)

`to_pascal_case`/`to_snake_case` come from the external `Inflector` crate;
they are modelled by the usual word-splitting algorithm: a word ends at any
non-alphanumeric character, and an uppercase letter begins a new word. -/

/-- Split into words: separators are dropped, an uppercase letter starts a new
word. `cur` is the current word accumulated in reverse. -/
def wordsGo : List Char → List Char → List (List Char)
  | [], cur => if cur = [] then [] else [cur.reverse]
  | c :: rest, cur =>
    if ¬ c.isAlphanum then
      if cur = [] then wordsGo rest [] else cur.reverse :: wordsGo rest []
    else if c.isUpper then
      if cur = [] then wordsGo rest [c] else cur.reverse :: wordsGo rest [c]
    else wordsGo rest (c :: cur)

/-- Capitalise one word: first character upper, rest lower. -/
def capitalizeWord : List Char → List Char
  | [] => []
  | c :: rest => c.toUpper :: rest.map Char.toLower

/-- Modelled from the `Inflector` crate: `to_pascal_case`. -/
def toPascal (s : String) : String :=
  String.mk ((wordsGo s.data []).map capitalizeWord).flatten

/-- Modelled from the `Inflector` crate: `to_snake_case`. -/
def toSnake (s : String) : String :=
  String.intercalate "_" ((wordsGo s.data []).map
    (fun w => String.mk (w.map Char.toLower)))

example : toPascal "pet" = "Pet" := by decide
example : toPascal "thieves' tools" = "ThievesTools" := by decide
example : toPascal "normalField?with&params=1" = "NormalFieldWithParams1" := by decide
example : toPascal "_" = "" := by decide
example : toPascal "a_b" = "AB" := by decide
example : toPascal "aB" = "AB" := by decide
example : toSnake "fooBar" = "foo_bar" := by decide

/-! ## Field keys and serde renames (`rename_keyword` / `field`) -/

/-- What `field` emits for one property key: the Rust-side identifier and the
`#[serde(rename = ...)]` wire name, when one is attached. -/
structure FieldKey where
  name : String
  rename : Option String
deriving DecidableEq, Repr

/-- `field`: sanitise a property name into a field identifier, snake-casing it
and recording the original wire name whenever the spelling changes. -/
def fieldKey (s : String) : FieldKey :=
  if str_to_ident s ≠ s then { name := str_to_ident s, rename := some s }
  else
    let snake := toSnake s
    if snake = s ∧ ¬ (snake.data.any (fun c => c = '$' ∨ c = '#')) then
      { name := s, rename := none }
    else if snake.data = [] then { name := "underscore", rename := some s }
    else { name := str_to_ident snake, rename := some s }

/-- `rename_keyword("", pascal_case_variant)` as used for enum variant names:
the variant identifier plus the rename to the pascal-cased display name, when
sanitisation changed it. -/
def variantIdent (pascal : String) : String × Option String :=
  if str_to_ident pascal ≠ pascal then (str_to_ident pascal, some pascal)
  else (pascal, none)

/-! ## Generated declarations

The Rust code builds `proc_macro2::TokenStream`s; they are modelled as a
small AST recording exactly the semantically relevant parts of each emitted
item (derives, serde attributes, fields, variants). -/

/-- One struct field as emitted by `FieldExpander::expand_fields`: identifier,
optional serde rename, final type expression, `#[serde(default)]` marker,
extra serde attributes, doc comment. -/
structure SField where
  name : String
  rename : Option String
  typ : String
  default : Bool
  attributes : List String
  doc : Option String
deriving DecidableEq, Repr

/-- One enum variant: identifier, rename attached by `rename_keyword` (to the
pascal-cased display name), rename to the wire value, and the integer
discriminant for numeric paired enums. -/
structure Variant where
  ident : String
  preRename : Option String
  valueRename : Option String
  disc : Option Int
deriving DecidableEq, Repr

/-- One emitted declaration (`TokenStream` pushed into `Expander::types`). -/
inductive Decl where
  /-- `pub struct name { fields }` with its derives and serde attributes. -/
  | structDecl (name : String) (derivesDefault : Bool) (denyUnknown : Bool)
      (rename : Option String) (fields : List SField)
  /-- `pub enum name { variants }`; `reprI64` selects the
  `Serialize_repr`/`repr(i64)` representation. -/
  | enumDecl (name : String) (rename : Option String) (reprI64 : Bool)
      (variants : List Variant)
  /-- `pub type aliasName = Option<enumName>;` plus the non-nullable enum,
  emitted when a `null` entry made the enum optional. -/
  | optionalEnum (aliasName : String) (enumName : String) (rename : Option String)
      (reprI64 : Bool) (variants : List Variant)
  /-- `#[serde(untagged)] pub enum name { v₀(t₀), ... }` from `expand_one_of`;
  each variant is (variant name, payload type name). -/
  | untaggedUnion (name : String) (variants : List (String × String))
  /-- `pub type name = target;` -/
  | aliasDecl (name : String) (target : String)
  /-- `TokenStream::new()`: the suppressed self-referential alias. -/
  | emptyDecl
  /-- A declaration preceded by a doc comment (the raw description text; the
  line-wrapping of `make_doc_comment` is cosmetic and not modelled). -/
  | doc (comment : String) (d : Decl)
deriving DecidableEq, Repr

/-- Fatal conditions: each Rust `panic!`/`expect`/`unwrap` of the expander,
plus `fuelOut` for the embedding's explicit fuel. -/
inductive GenError where
  /-- `type_ref`: `"No root name specified for schema"`. -/
  | missingRootName
  /-- `schema_ref`: `"Expected definition"` — reference string and the
  missing path segment. -/
  | unresolvedReference (s : String) (comp : String)
  /-- `expand_schema`: `"enumNames and enum have different length"`. -/
  | enumNamesLengthMismatch (names : Nat) (values : Nat)
  /-- `expand_schema`: `"Expected string ... for enum got ..."`. -/
  | invalidEnumValue (v : JValue)
  /-- `expand`: `schema.title.clone().unwrap()` on a title-less root. -/
  | noTitle
  /-- `expand_type_`: `array.items[0]` indexing an empty `items`. -/
  | itemsIndexOutOfBounds
  /-- The embedding's recursion fuel ran out (the Rust code would still be
  recursing). -/
  | fuelOut
deriving DecidableEq, Repr

deriving instance DecidableEq for Except

/-! ## Reference resolution (`type_ref` / `schema_ref`) -/

/-- Split a character list on a separator (the semantics of Rust's
`str::split` with a one-character pattern); `cur` is accumulated reversed. -/
def splitCharGo (sep : Char) : List Char → List Char → List (List Char)
  | [], cur => [cur.reverse]
  | c :: rest, cur =>
    if c = sep then cur.reverse :: splitCharGo sep rest []
    else splitCharGo sep rest (c :: cur)

/-- Split a string on a one-character separator. -/
def splitChar (sep : Char) (s : String) : List String :=
  (splitCharGo sep s.data []).map String.mk

/-- Kernel-reducible `String.startsWith`. -/
def strStartsWith (s pre : String) : Bool :=
  List.isPrefixOf pre.data s.data

/-- Does `pre` look like the scheme-and-body part of a URI? Modelled from the
`uriparse` crate: a scheme is a leading alphabetic character followed by
alphanumerics or `+`/`-`/`.` up to a `:`, and no space may appear. -/
def validUriPrefix (pre : String) : Bool :=
  (match splitChar ':' pre with
   | s₀ :: _ :: _ =>
     (match s₀.data.head? with
      | some c => c.isAlpha
      | none => false) &&
       s₀.data.all (fun c => c.isAlphanum || c = '+' || c = '-' || c = '.')
   | _ => false) && pre.data.all (fun c => c ≠ ' ')

/-- The fragment `type_ref` extracts from a `$ref` string. Modelled from the
`uriparse` calls: parse as a URI and keep its fragment; otherwise parse the
string minus one leading `#` as a bare fragment; when both fail, fall back to
the whole string. -/
def fragmentOf (s : String) : String :=
  match splitChar '#' s with
  | [] => s
  | [_] => s
  | [pre, frag] => if pre = "" ∨ validUriPrefix pre then frag else s
  | _ => s

/-- `Expander::type_ref`: turn a `$ref` string into a type name. An empty
fragment means the document root and needs the configured root name. -/
def typeRef (rootName : Option String) (s : String) : Except GenError String :=
  let frag := fragmentOf s
  match (if frag = "" then none else some ()) with
  | none =>
    match rootName with
    | some r => .ok (replace_numeric_start (replace_invalid_identifier_chars (toPascal r)))
    | none => .error .missingRootName
  | some _ =>
    let base := (splitChar '/' frag).getLastD frag
    .ok (replace_numeric_start (replace_invalid_identifier_chars (toPascal base)))

example : typeRef (some "SchemaName") "normalField" = .ok "NormalField" := by decide
example : typeRef (some "SchemaName") "#" = .ok "SchemaName" := by decide
example : typeRef (some "SchemaName") "" = .ok "SchemaName" := by decide
example : typeRef (some "SchemaName") "1" = .ok "_1" := by decide
example : typeRef (some "SchemaName") "http://example.com/schema.json#" = .ok "SchemaName" := by decide
example : typeRef (some "SchemaName") "http://example.com/normalField#withFragment" = .ok "WithFragment" := by decide
example : typeRef (some "SchemaName") "http://example.com/normalField#withFragment/and/path" = .ok "Path" := by decide
example : typeRef (some "SchemaName") "http://example.com/normalField?with&params#andFragment/and/path" = .ok "Path" := by decide
example : typeRef (some "SchemaName") "#/only/Fragment" = .ok "Fragment" := by decide
example : typeRef (some "SchemaName") "ref" = .ok "Ref" := by decide
example : typeRef (some "SchemaName") "_" = .ok "" := by decide
example : typeRef (some "SchemaName") "thieves' tools" = .ok "ThievesTools" := by decide
example : typeRef (some "SchemaName") "http://example.com/normalField?with&params=1" = .ok "NormalFieldWithParams1" := by decide

/-- Association-list lookup standing in for `BTreeMap::get`. -/
def alGet (l : List (String × Schema)) (k : String) : Option Schema :=
  match l with
  | [] => none
  | (k', v) :: rest => if k' = k then some v else alGet rest k

/-- The step function of `Expander::schema_ref`'s fold over the `/`-separated
path segments. -/
def schemaRefGo (root : Schema) (s : String) : List String → Schema → Except GenError Schema
  | [], sch => .ok sch
  | comp :: rest, sch =>
    if comp.data.getLast? = some '#' then schemaRefGo root s rest root
    else if comp = "definitions" then schemaRefGo root s rest sch
    else
      match alGet sch.definitions comp with
      | some d => schemaRefGo root s rest d
      | none => .error (.unresolvedReference s comp)

/-- `Expander::schema_ref`: resolve a `definitions`-path reference against the
root schema. -/
def schemaRef (root : Schema) (s : String) : Except GenError Schema :=
  schemaRefGo root s (splitChar '/' s) root

/-! ## Composition merging (`merge_all_of` / `Expander::schema`) -/

/-- In-place replacement of an existing key's value (`BTreeMap` occupied
entry: the key keeps its position). -/
def alReplace (l : List (String × Schema)) (k : String) (v : Schema) :
    List (String × Schema) :=
  match l with
  | [] => []
  | (k', v') :: rest =>
    if k' = k then (k, v) :: rest else (k', v') :: alReplace rest k v

/-- Insertion of a new key at its sorted `BTreeMap` position. -/
def insertSorted (k : String) (v : Schema) : List (String × Schema) → List (String × Schema)
  | [] => [(k, v)]
  | (k', v') :: rest =>
    if k < k' then (k, v) :: (k', v') :: rest
    else (k', v') :: insertSorted k v rest

mutual
/-- `merge_all_of`: fold one `allOf` entry `r` into the accumulator `result`:
properties merge recursively field by field, `ref`/`description` are
overwritten when `r` has them, the `required` options merge by list
extension, and the declared type set is intersected (`Vec::retain`). The
Rust recursion is structural on nested map entries; the embedding uses
fuel. -/
def merge_all_of (fuel : Nat) (result : Schema) (r : Schema) : Except GenError Schema :=
  match fuel with
  | 0 => .error .fuelOut
  | f+1 => do
    let props ← mergeProperties f result.properties r.properties
    let m := result.meta
    let m := { m with
      ref_ := match r.ref_ with | some rr => some rr | none => m.ref_,
      description := match r.description with | some d => some d | none => m.description,
      required := match m.required, r.required with
        | some a, some b => some (a ++ b)
        | none, some b => some b
        | a, none => a,
      type_ := m.type_.filter (fun e => r.type_.contains e) }
    .ok (Schema.mk m props result.items result.all_of result.one_of result.any_of
      result.additional_properties result.pattern_properties result.definitions)

/-- The fold of `merge_all_of` over `r.properties`: vacant keys are inserted
at their sorted position, occupied keys are merged recursively. -/
def mergeProperties (fuel : Nat) (acc : List (String × Schema))
    (l : List (String × Schema)) : Except GenError (List (String × Schema)) :=
  match l with
  | [] => .ok acc
  | (k, v) :: rest =>
    match fuel with
    | 0 => .error .fuelOut
    | f+1 =>
      match alGet acc k with
      | some old => do
        let m ← merge_all_of f old v
        mergeProperties f (alReplace acc k m) rest
      | none => mergeProperties f (insertSorted k v acc) rest
end

mutual
/-- `Expander::schema`: the effective view of a node — substitute a `$ref`
target, then fold a non-empty `allOf` list by merging each entry's effective
view into the first entry's effective view. A node without `ref` or `allOf`
is returned unchanged. -/
def schemaView (fuel : Nat) (root : Schema) (s : Schema) : Except GenError Schema :=
  match fuel with
  | 0 => .error .fuelOut
  | f+1 => do
    let s₁ ← (match s.ref_ with
      | some r => schemaRef root r
      | none => .ok s)
    match s₁.all_of with
    | some (a :: rest) => do
      let first ← schemaView f root a
      schemaViewFold f root first rest
    | _ => .ok s₁

/-- The `allOf` fold of `Expander::schema`. -/
def schemaViewFold (fuel : Nat) (root : Schema) (acc : Schema) (l : List Schema) :
    Except GenError Schema :=
  match l with
  | [] => .ok acc
  | d :: rest =>
    match fuel with
    | 0 => .error .fuelOut
    | f+1 => do
      let dv ← schemaView f root d
      let m ← merge_all_of f acc dv
      schemaViewFold f root m rest
end

/-! ## Structural schema equality (`PartialEq` on `Schema`), with fuel -/

mutual
/-- Structural equality of schema nodes (Rust `#[derive(PartialEq)]`),
bounded by fuel; with enough fuel it agrees with structural equality. -/
def schemaBEq : Nat → Schema → Schema → Bool
  | 0, _, _ => false
  | f+1, .mk m1 p1 i1 a1 o1 y1 ap1 pp1 d1, .mk m2 p2 i2 a2 o2 y2 ap2 pp2 d2 =>
    decide (m1 = m2) && propsBEq f p1 p2 && listBEq f i1 i2 &&
    optListBEq f a1 a2 && optListBEq f o1 o2 && optListBEq f y1 y2 &&
    optAddPropsBEq f ap1 ap2 && propsBEq f pp1 pp2 && propsBEq f d1 d2

def propsBEq : Nat → List (String × Schema) → List (String × Schema) → Bool
  | _, [], [] => true
  | f+1, (k1, v1) :: r1, (k2, v2) :: r2 =>
    decide (k1 = k2) && schemaBEq f v1 v2 && propsBEq f r1 r2
  | _, _, _ => false

def listBEq : Nat → List Schema → List Schema → Bool
  | _, [], [] => true
  | f+1, a :: r1, b :: r2 => schemaBEq f a b && listBEq f r1 r2
  | _, _, _ => false

def optListBEq : Nat → Option (List Schema) → Option (List Schema) → Bool
  | _, none, none => true
  | f+1, some a, some b => listBEq f a b
  | _, _, _ => false

def optAddPropsBEq : Nat → Option AddProps → Option AddProps → Bool
  | _, none, none => true
  | f+1, some a, some b => addPropsBEq f a b
  | _, _, _ => false

def addPropsBEq : Nat → AddProps → AddProps → Bool
  | _, .bool b1, .bool b2 => decide (b1 = b2)
  | f+1, .schema s1, .schema s2 => schemaBEq f s1 s2
  | _, .nonObject, .nonObject => true
  | _, _, _ => false
end

/-! ## Expander state and the type-descriptor record -/

/-- The immutable configuration of one `Expander` (`root_name`,
`schemafy_path`, `root`). -/
structure Env where
  rootName : Option String
  schemafyPath : String
  root : Schema

/-- The mutable state of one `Expander`: the naming context and the type
registry (`types`). -/
structure ExpState where
  currentType : String
  currentField : String
  types : List (String × Decl)
deriving DecidableEq, Repr

/-- `FieldType`: the ephemeral type descriptor produced per field. -/
structure FieldType where
  typ : String
  attributes : List String
  default : Bool
deriving DecidableEq, Repr

/-- `impl From<S> for FieldType`. -/
def ftOf (t : String) : FieldType := ⟨t, [], false⟩

/-- `self.types.push((name, decl))`. -/
def pushType (st : ExpState) (n : String) (d : Decl) : ExpState :=
  { st with types := st.types ++ [(n, d)] }

/-- The state of `Expander::new`. -/
def initState : ExpState := ⟨"", "", []⟩

/-- `additional_properties == Some(Value::Bool(false))`. -/
def isBoolFalse : Option AddProps → Bool
  | some (.bool false) => true
  | _ => false

/-- The first two entries of an at-least-two-element `anyOf` list. -/
def anyOfPair : Option (List Schema) → Option (Schema × Schema)
  | some (a :: b :: _) => some (a, b)
  | _ => none

/-- A `oneOf` list when it has at least two entries. -/
def oneOfList : Option (List Schema) → Option (List Schema)
  | some (a :: b :: rest) => some (a :: b :: rest)
  | _ => none

/-- Decimal rendering of a natural number (Rust `format!("{}", i)`), with the
number itself as structural fuel. -/
def natToStrGo : Nat → Nat → List Char → List Char
  | 0, _, acc => acc
  | fuel+1, n, acc =>
    let d := Char.ofNat (48 + n % 10)
    if n < 10 then d :: acc else natToStrGo fuel (n / 10) (d :: acc)

/-- Decimal rendering of a natural number. -/
def natToStr (n : Nat) : String := String.mk (natToStrGo (n + 1) n [])

example : natToStr 0 = "0" := by decide
example : natToStr 1 = "1" := by decide
example : natToStr 12 = "12" := by decide

/-! ## Enum emission (the enum arm of `expand_schema`) -/

/-- The paired-enum variant fold (`enumNames` present): walk the
(value, display name) pairs left to right, building the variant list and the
`optional` / `repr_i64` flags; a value that is not a string, number or null
is the fatal `InvalidEnumValue`. -/
def pairedVariants : List (JValue × String) → Except GenError (List Variant × Bool × Bool)
  | [] => .ok ([], false, false)
  | (v, nm) :: rest =>
    let pascal := toPascal nm
    let iv := variantIdent pascal
    match v with
    | .str s => do
      let (vs, opt, rep) ← pairedVariants rest
      .ok (⟨iv.1, iv.2, some s, none⟩ :: vs, opt, rep)
    | .num n => do
      let (vs, opt, _) ← pairedVariants rest
      .ok (⟨iv.1, iv.2, none, some n⟩ :: vs, opt, true)
    | .null => do
      let (vs, _, rep) ← pairedVariants rest
      .ok (vs, true, rep)
    | other => .error (.invalidEnumValue other)

/-- The plain-enum variant fold (no `enumNames`): only strings become
variants and only null is otherwise tolerated (it marks the enum nullable);
anything else — numbers included — is the fatal `InvalidEnumValue`. -/
def plainVariants : List JValue → Except GenError (List Variant × Bool)
  | [] => .ok ([], false)
  | v :: rest =>
    match v with
    | .str s =>
      let pascal := toPascal s
      let iv := variantIdent pascal
      let valueRen := if pascal = s then none else some s
      do
        let (vs, opt) ← plainVariants rest
        .ok (⟨iv.1, iv.2, valueRen, none⟩ :: vs, opt)
    | .null => do
      let (vs, _) ← plainVariants rest
      .ok (vs, true)
    | other => .error (.invalidEnumValue other)

/-- The enum arm of `expand_schema`: check the `enumNames` pairing, build the
variants, then emit a plain enum, an integer-`repr` enum, or — when a `null`
entry made the enum nullable — the `pub type Name = Option<Name_>` alias over
the separately named non-nullable enum. -/
def expandEnum (name : String) (rename : Option String) (values : List JValue)
    (names : Option (List String)) : Except GenError Decl :=
  let namesL := names.getD []
  if namesL.isEmpty then do
    let (variants, opt) ← plainVariants values
    if opt then .ok (.optionalEnum name (name ++ "_") rename false variants)
    else .ok (.enumDecl name rename false variants)
  else
    if namesL.length ≠ values.length then
      .error (.enumNamesLengthMismatch namesL.length values.length)
    else do
      let (variants, opt, rep) ← pairedVariants (values.zip namesL)
      if opt then .ok (.optionalEnum name (name ++ "_") rename rep variants)
      else .ok (.enumDecl name rename rep variants)

/-! ## The recursive expander

All functions take explicit fuel; every recursive call strictly decreases
it, so the mutual block is structural on the fuel. The effective-view
computation that `FieldExpander::expand_fields` performs on entry is inlined
into `expandSchema` (it is a pure read, so the observable behaviour is
unchanged). -/

mutual
/-- `Expander::expand_type`: expand a field's schema and restore the naming
context, box direct self-references, and wrap a non-required non-default
field in `Option` with the skip-serialisation attribute. -/
def expandType (fuel : Nat) (env : Env) (typeName : String) (required : Bool)
    (s : Schema) (st : ExpState) : Except GenError (FieldType × ExpState) :=
  match fuel with
  | 0 => .error .fuelOut
  | f+1 => do
    let saved := st.currentType
    let (r, st₁) ← expandType_ f env s st
    let st₂ := { st₁ with currentType := saved }
    let r := if toPascal typeName = toPascal r.typ then
        { r with typ := "Box<" ++ r.typ ++ ">" }
      else r
    let r :=
      if required then r
      else
        let r := if r.default then r else { r with typ := "Option<" ++ r.typ ++ ">" }
        if strStartsWith r.typ "Option<" then
          { r with attributes := r.attributes ++ ["skip_serializing_if=\"Option::is_none\""] }
        else r
    .ok (r, st₂)

/-- `Expander::expand_type_`: the type-synthesis dispatch, in priority order:
`$ref`, the `anyOf` one-or-many heuristic, `oneOf` unions, the nullable type
pair, the single declared type, and the dynamic-value fallback. -/
def expandType_ (fuel : Nat) (env : Env) (s : Schema) (st : ExpState) :
    Except GenError (FieldType × ExpState) :=
  match fuel with
  | 0 => .error .fuelOut
  | f+1 =>
    match s.ref_ with
    | some r => do
      let t ← typeRef env.rootName r
      .ok (ftOf t, st)
    | none =>
      match anyOfPair s.any_of with
      | some (a0, a1) => do
        let simple ← schemaView f env.root a0
        let arr ← schemaView f env.root a1
        (match arr.type_ with
         | .array :: _ =>
           (match arr.items with
            | [] => .error .itemsIndexOutOfBounds
            | i0 :: _ => do
              let iv ← schemaView f env.root i0
              if schemaBEq f simple iv then do
                let (ft0, st₁) ← expandType_ f env a0 st
                .ok ({ typ := "Vec<" ++ ft0.typ ++ ">",
                       attributes := ["with=\"" ++ env.schemafyPath ++ "one_or_many\""],
                       default := true }, st₁)
              else .ok (ftOf "serde_json::Value", st))
         | _ => .ok (ftOf "serde_json::Value", st))
      | none =>
        match oneOfList s.one_of with
        | some schemas => do
          let cf := if st.currentField = "" then ""
            else toPascal (str_to_ident st.currentField)
          let savedType := st.currentType ++ cf
          let (vs, st₁) ← expandOneOfGo f env savedType 0 schemas st
          let st₂ := pushType st₁ savedType (.untaggedUnion savedType vs)
          .ok (ftOf savedType, st₂)
        | none =>
          match s.type_ with
          | [t1, t2] =>
            if t1 = .null ∨ t2 = .null then do
              let (inner, st₁) ←
                (match ([t1, t2].filter (fun x => x ≠ SimpleTypes.null)) with
                 | [t] => expandSingle f env t s st
                 | _ => .ok (ftOf "serde_json::Value", st))
              .ok ({ typ := "Option<" ++ inner.typ ++ ">", attributes := [],
                     default := true }, st₁)
            else .ok (ftOf "serde_json::Value", st)
          | [t] => expandSingle f env t s st
          | _ => .ok (ftOf "serde_json::Value", st)

/-- The single-declared-type dispatch of `expand_type_` (also reached by the
nullable-pair arm on the retained non-null type, whose clone differs from
`s` only in `type_`). -/
def expandSingle (fuel : Nat) (env : Env) (t : SimpleTypes) (s : Schema)
    (st : ExpState) : Except GenError (FieldType × ExpState) :=
  match fuel with
  | 0 => .error .fuelOut
  | f+1 =>
    match t with
    | .string =>
      if s.enum_ == some [] then .ok (ftOf "serde_json::Value", st)
      else .ok (ftOf "String", st)
    | .integer => .ok (ftOf "i64", st)
    | .boolean => .ok (ftOf "bool", st)
    | .number => .ok (ftOf "f64", st)
    | .object =>
      if ¬ s.properties.isEmpty ∨ isBoolFalse s.additional_properties then do
        let name := toPascal st.currentType ++ toPascal st.currentField
        let (tokens, st₁) ← expandSchema f env name s st
        let st₂ := pushType st₁ name tokens
        .ok (ftOf name, st₂)
      else do
        let (prop, st₁) ←
          (match s.additional_properties with
           | some (.schema sub) => do
             let (ft, st') ← expandType_ f env sub st
             .ok (ft.typ, st')
           | _ => .ok (("serde_json::Value" : String), st))
        .ok ({ typ := "::std::collections::BTreeMap<String, " ++ prop ++ ">",
               attributes := [],
               default := s.default == some (.obj 0) }, st₁)
    | .array =>
      (match s.items with
       | [] => .ok (ftOf "Vec<serde_json::Value>", st)
       | i0 :: _ => do
         let st₁ := { st with currentType := st.currentType ++ "Item" }
         let (ft, st₂) ← expandType_ f env i0 st₁
         .ok (ftOf ("Vec<" ++ ft.typ ++ ">"), st₂))
    | _ => .ok (ftOf "serde_json::Value", st)

/-- The branch walk of `expand_one_of`: each branch yields (variant name,
payload type name); the variant name is the branch's `id` or `Variant{i}`; a
`$ref` branch's payload is the referenced name, any other branch is expanded
as a brand-new named declaration and registered. -/
def expandOneOfGo (fuel : Nat) (env : Env) (savedType : String) (i : Nat)
    (branches : List Schema) (st : ExpState) :
    Except GenError (List (String × String) × ExpState) :=
  match branches with
  | [] => .ok ([], st)
  | b :: rest =>
    match fuel with
    | 0 => .error .fuelOut
    | f+1 =>
      let nm := b.id.getD ("Variant" ++ natToStr i)
      match b.ref_ with
      | some r => do
        let t ← typeRef env.rootName r
        let (vs, st₁) ← expandOneOfGo f env savedType (i+1) rest st
        .ok ((nm, t) :: vs, st₁)
      | none => do
        let tn := savedType ++ nm
        let (d, st₁) ← expandSchema f env tn b st
        let st₂ := pushType st₁ tn d
        let (vs, st₃) ← expandOneOfGo f env savedType (i+1) rest st₂
        .ok ((nm, tn) :: vs, st₃)

/-- `Expander::expand_definitions`: expand and register every definition the
node carries, wrapping each in its doc comment when present. -/
def expandDefinitions (fuel : Nat) (env : Env) (defs : List (String × Schema))
    (st : ExpState) : Except GenError ExpState :=
  match defs with
  | [] => .ok st
  | (name, d) :: rest =>
    match fuel with
    | 0 => .error .fuelOut
    | f+1 => do
      let (decl, st₁) ← expandSchema f env name d st
      let entry := match d.description with
        | some c => Decl.doc c decl
        | none => decl
      expandDefinitions f env rest (pushType st₁ name entry)

/-- The property fold of `FieldExpander::expand_fields`: expand each property
of the effective schema in order, tracking the all-fields-are-`Option` flag
that decides the `Default` derive. -/
def expandFieldsGo (fuel : Nat) (env : Env) (typeName : String)
    (reqList : List String) (props : List (String × Schema)) (flag : Bool)
    (st : ExpState) : Except GenError ((List SField × Bool) × ExpState) :=
  match props with
  | [] => .ok (([], flag), st)
  | (fname, v) :: rest =>
    match fuel with
    | 0 => .error .fuelOut
    | f+1 => do
      let st₁ := { st with currentField := fname }
      let req := reqList.contains fname
      let (ft, st₂) ← expandType f env typeName req v st₁
      let flag₁ := flag && strStartsWith ft.typ "Option<"
      let k := fieldKey fname
      let fd : SField := { name := k.name, rename := k.rename, typ := ft.typ,
                           default := ft.default, attributes := ft.attributes,
                           doc := v.description }
      let ((fds, flagF), st₃) ← expandFieldsGo f env typeName reqList rest flag₁ st₂
      .ok ((fd :: fds, flagF), st₃)

/-- `Expander::expand_schema`: expand nested definitions, compute the
effective view, then decide struct vs. enum vs. alias for the node. -/
def expandSchema (fuel : Nat) (env : Env) (origName : String) (s : Schema)
    (st : ExpState) : Except GenError (Decl × ExpState) :=
  match fuel with
  | 0 => .error .fuelOut
  | f+1 => do
    let st₁ ← expandDefinitions f env s.definitions st
    let pascalName := replace_invalid_identifier_chars (toPascal origName)
    let st₂ := { st₁ with currentType := pascalName }
    let eff ← schemaView f env.root s
    let ((fields, flag), st₃) ←
      expandFieldsGo f env origName (eff.required.getD []) eff.properties true st₂
    let rename := if pascalName = origName then none else some origName
    if ¬ fields.isEmpty ∨ isBoolFalse s.additional_properties then
      let deny := isBoolFalse s.additional_properties && s.pattern_properties.isEmpty
      .ok (.structDecl pascalName flag deny rename fields, st₃)
    else if ¬ (s.enum_.getD []).isEmpty then do
      let d ← expandEnum pascalName rename (s.enum_.getD []) s.enum_names
      .ok (d, st₃)
    else do
      let (ft, st₄) ← expandType f env "" true s st₃
      if pascalName = ft.typ then .ok (.emptyDecl, st₄)
      else .ok (.aliasDecl pascalName ft.typ, st₄)
end

/-- `Expander::expand`: expand the document root under its `title` (panicking
when there is none, whether or not a root name was configured), append the
root declaration — named by the title — and return every registered
declaration in insertion order. -/
def expand (fuel : Nat) (env : Env) (s : Schema) (st : ExpState) :
    Except GenError (List Decl × ExpState) :=
  match s.title with
  | none => .error .noTitle
  | some t => do
    let (decl, st₁) ← expandSchema fuel env t s st
    let wrapped := match s.description with
      | some c => Decl.doc c decl
      | none => decl
    let st₂ := pushType st₁ t wrapped
    .ok (st₂.types.map (fun p => p.2), st₂)

/-! ## Concrete schema documents used by the claims -/

/-- A bare `{"$ref": r}` node. -/
def refSchema (r : String) : Schema :=
  .mk { emptyMeta with ref_ := some r } [] [] none none none none [] []

/-- `{"type": "string"}`. -/
def strSchema : Schema :=
  .mk { emptyMeta with type_ := [.string] } [] [] none none none none [] []

/-- `{"type": ["integer", "null"]}`. -/
def intNullSchema : Schema :=
  .mk { emptyMeta with type_ := [.integer, .null] } [] [] none none none none [] []

/-- The `oneOf` node of the `Owner.pet` scenario:
`{"oneOf":[{"$ref":"#/definitions/Cat"},{"$ref":"#/definitions/Dog"}]}`. -/
def oneOfPetSchema : Schema :=
  .mk emptyMeta [] [] none
    (some [refSchema "#/definitions/Cat", refSchema "#/definitions/Dog"]) none none [] []

/-- A default expander configuration (no root name, the standard runtime
path, an empty root document). -/
def env0 : Env := ⟨none, "::schemafy_core::", emptySchema⟩

/-- The naming context while expanding field `pet` of `Owner`. -/
def ownerPetState : ExpState := ⟨"Owner", "pet", []⟩

/-- The `Pet` end-to-end document of spec §8. -/
def petSchema : Schema :=
  .mk { emptyMeta with
          type_ := [.object], title := some "Pet", required := some ["name"] }
    [("age", intNullSchema), ("name", strSchema)] [] none none none none [] []

/-- `{"type": "array", "items": {"type": "string"}}`. -/
def arrOfStrSchema : Schema :=
  .mk { emptyMeta with type_ := [.array] } [] [strSchema] none none none none [] []

/-- The one-or-many `anyOf` node: a string branch followed by an array branch
whose element schema is the same string schema. -/
def oneOrManySchema : Schema :=
  .mk emptyMeta [] [] none none (some [strSchema, arrOfStrSchema]) none [] []

/-- An object whose single field `x` is the one-or-many node. -/
def vecDefaultStructSchema : Schema :=
  .mk { emptyMeta with type_ := [.object] } [("x", oneOrManySchema)] []
    none none none none [] []

/-- An enum-only schema with the given `enum` and `enumNames` lists. -/
def enumSchemaOf (values : List JValue) (names : List String) : Schema :=
  .mk { emptyMeta with enum_ := some values, enum_names := some names }
    [] [] none none none none [] []

/-- The paired enum of C8: `enum  ["a", null, "b"]`, `enumNames
["A", "NullName", "B"]`. -/
def colorSchema : Schema := enumSchemaOf [.str "a", .null, .str "b"] ["A", "NullName", "B"]

/-- A plain enum (no `enumNames`) whose single entry is the number 1. -/
def plainNumEnumSchema : Schema :=
  .mk { emptyMeta with enum_ := some [.num 1] } [] [] none none none none [] []

/-- C7: `{"type": "object", "additionalProperties": false}` — the inline
object for nested field `b`. -/
def bS : Schema :=
  .mk { emptyMeta with type_ := [.object] } [] [] none none none
    (some (.bool false)) [] []

/-- C7: the object field `a` of the root, carrying the inline object `b`. -/
def aS : Schema :=
  .mk { emptyMeta with type_ := [.object] } [("b", bS)] [] none none none none [] []

/-- C7: the root document `Root` with object field `a` (fixed) and an
unrelated sibling field `z` of arbitrary content. -/
def c7doc (sib : Schema) : Schema :=
  .mk { emptyMeta with type_ := [.object], title := some "Root" }
    [("a", aS), ("z", sib)] [] none none none none [] []

/-- C7: the expander configuration for `c7doc`. -/
def env7 (sib : Schema) : Env := ⟨some "Root", "::schemafy_core::", c7doc sib⟩

/-- C7: the registered declaration of the nested type `RootAB`. -/
def bD : Decl := .structDecl "RootAB" true true none []

/-- C7: the registered declaration of the nested type `RootA`. -/
def aD : Decl :=
  .structDecl "RootA" true false none
    [⟨"b", none, "Option<RootAB>", false,
      ["skip_serializing_if=\"Option::is_none\""], none⟩]

/-- C7: the root declaration produced for `c7doc strSchema`. -/
def c7rootDecl : Decl :=
  .structDecl "Root" true false none
    [⟨"a", none, "Option<RootA>", false,
      ["skip_serializing_if=\"Option::is_none\""], none⟩,
     ⟨"z", none, "Option<String>", false,
      ["skip_serializing_if=\"Option::is_none\""], none⟩]

/-- C2: `{"type": "object", "properties": {"x": {"type": "string"}}}`. -/
def bInline : Schema :=
  .mk { emptyMeta with type_ := [.object] } [("x", strSchema)] []
    none none none none [] []

/-- C2: the duplicate-name document — root `A` with definition `AB` and an
inline object field `b` (whose nested type is also named `AB`). -/
def c2doc : Schema :=
  .mk { emptyMeta with type_ := [.object], title := some "A" }
    [("b", bInline)] [] none none none none [] [("AB", emptySchema)]


/-! ## Claims about the identifier sanitizer (C3) -/

/-- C3 (counterexample): the sentinels do not depend on the *final* result of
the transform pipeline. For input `"$"` the pipeline result is empty yet
`str_to_ident` returns `"invalid_"`, not `"empty_"`; for input `"$_"` the
pipeline result consists only of `_` yet `str_to_ident` returns `"_"`, not
`"underscore_"`. -/
theorem str_to_ident_sentinel_counterexample :
    (sanitizePipeline "$" = "" ∧ str_to_ident "$" ≠ "empty_") ∧
    (sanitizePipeline "$_" = "_" ∧ str_to_ident "$_" ≠ "underscore_") := by
  decide

/-- C3 (amended): `str_to_ident` returns `"empty_"` exactly when the *input*
is empty, `"underscore_"` exactly when the *input* consists only of
underscores, `"invalid_"` when the pipeline result (strip `$`, replace
invalid characters, prefix digits, collapse underscore runs) is empty, the
pipeline result with a trailing `_` when it equals a reserved keyword, and
the pipeline result unchanged otherwise. -/
theorem str_to_ident_cases (s : String) :
    (s = "" → str_to_ident s = "empty_") ∧
    (s ≠ "" → s.data.all (fun c => c = '_') = true → str_to_ident s = "underscore_") ∧
    (s ≠ "" → s.data.all (fun c => c = '_') = false → sanitizePipeline s = "" →
      str_to_ident s = "invalid_") ∧
    (s ≠ "" → s.data.all (fun c => c = '_') = false → sanitizePipeline s ≠ "" →
      sanitizePipeline s ∈ rustKeywords → str_to_ident s = sanitizePipeline s ++ "_") ∧
    (s ≠ "" → s.data.all (fun c => c = '_') = false → sanitizePipeline s ≠ "" →
      sanitizePipeline s ∉ rustKeywords → str_to_ident s = sanitizePipeline s) := by
  have hdata : s ≠ "" → ¬ s.data = [] := by
    intro h hd
    exact h (by rw [String.ext_iff, hd])
  have hpipe : ∀ t : String, t ≠ "" → ¬ t.data = [] := by
    intro t h hd
    exact h (by rw [String.ext_iff, hd])
  refine ⟨?_, ?_, ?_, ?_, ?_⟩
  · intro h; subst h; decide
  · intro hne hall
    rw [str_to_ident, if_neg (hdata hne), if_pos hall]
  · intro hne hall hp
    rw [str_to_ident, if_neg (hdata hne), if_neg (by simp [hall]), if_pos (by rw [hp])]
  · intro hne hall hp hk
    rw [str_to_ident, if_neg (hdata hne), if_neg (by simp [hall]), if_neg (hpipe _ hp),
      if_pos (by simpa [List.contains, List.elem_iff] using hk)]
  · intro hne hall hp hk
    rw [str_to_ident, if_neg (hdata hne), if_neg (by simp [hall]), if_neg (hpipe _ hp),
      if_neg (by simpa [List.contains, List.elem_iff] using hk)]

/-- C3 (witness): the amended characterisation applied at concrete inputs —
a keyword, the empty string, an all-underscore string, and `"$"`. -/
theorem str_to_ident_cases_witness :
    str_to_ident "type" = "type_" ∧ str_to_ident "" = "empty_" ∧
    str_to_ident "__" = "underscore_" ∧ str_to_ident "$" = "invalid_" :=
  ⟨(str_to_ident_cases "type").2.2.2.1 (by decide) (by decide) (by decide) (by decide),
   (str_to_ident_cases "").1 rfl,
   (str_to_ident_cases "__").2.1 (by decide) (by decide),
   (str_to_ident_cases "$").2.2.1 (by decide) (by decide) (by decide)⟩

/-! ## Helpers for decomposing `Except` computations -/

/-- Split a successful bind into its successful stages. -/
theorem except_bind_ok {ε α β : Type} {e : Except ε α} {g : α → Except ε β} {b : β}
    (h : e >>= g = .ok b) : ∃ a, e = .ok a ∧ g a = .ok b := by
  cases e with
  | error err => exact Except.noConfusion (show Except.error err = Except.ok b from h)
  | ok a => exact ⟨a, rfl, h⟩

/-! ## The claim about `allOf` merging (C5) -/

/-- C5: a successful `merge_all_of` yields the union of the branches'
`required` sets, the intersection of their declared type sets, and the later
branch's `description` whenever it has one. -/
theorem merge_all_of_effective (f : Nat) (a b m : Schema)
    (h : merge_all_of f a b = .ok m) :
    (∀ x, x ∈ m.required.getD [] ↔ x ∈ a.required.getD [] ∨ x ∈ b.required.getD []) ∧
    (∀ t, t ∈ m.type_ ↔ t ∈ a.type_ ∧ t ∈ b.type_) ∧
    (∀ d, b.description = some d → m.description = some d) := by
  obtain ⟨ma, pa, ia, aa, oa, ya, apa, ppa, da⟩ := a
  obtain ⟨mb, pb, ib, ab, ob, yb, apb, ppb, db⟩ := b
  cases f with
  | zero => exact Except.noConfusion h
  | succ f =>
    rw [merge_all_of] at h
    obtain ⟨props, hp, h⟩ := except_bind_ok h
    rw [Except.ok.injEq] at h
    subst h
    refine ⟨?_, ?_, ?_⟩
    · intro x
      simp only [Schema.required, Schema.meta]
      cases hra : ma.required <;> cases hrb : mb.required <;> simp [hra, hrb]
    · intro t
      simp [Schema.type_, Schema.meta, List.mem_filter, List.contains, List.elem_iff]
    · intro d hd
      simp only [Schema.description, Schema.meta] at hd ⊢
      rw [hd]

/-- C5 (witness data): `{required:[x], type:[string,integer]}`. -/
def mergeLeftSchema : Schema :=
  .mk { emptyMeta with required := some ["x"], type_ := [.string, .integer] }
    [] [] none none none none [] []

/-- C5 (witness data): `{required:[y], type:[string], description:"later"}`. -/
def mergeRightSchema : Schema :=
  .mk { emptyMeta with
          required := some ["y"], type_ := [.string], description := some "later" }
    [] [] none none none none [] []

/-- C5 (witness data): the merge of the two schemas above. -/
def mergedSchema : Schema :=
  .mk { emptyMeta with
          required := some ["x", "y"], type_ := [.string], description := some "later" }
    [] [] none none none none [] []

/-- C5 (witness): the merged-view properties at the concrete pair — the
required union contains `y`, the type intersection is `{string}`, and the
later description wins. -/
theorem merge_all_of_effective_witness :
    "y" ∈ mergedSchema.required.getD [] ∧ SimpleTypes.string ∈ mergedSchema.type_ ∧
      mergedSchema.description = some "later" := by
  have h := merge_all_of_effective 2 mergeLeftSchema mergeRightSchema mergedSchema rfl
  exact ⟨(h.1 "y").2 (Or.inr (by decide)), (h.2.1 .string).2 ⟨by decide, by decide⟩,
    h.2.2 "later" rfl⟩

/-! ## The claim about enum value validation (C4) -/

/-- Reduction of a failed bind. -/
theorem except_error_bind {ε α β : Type} (e : ε) (g : α → Except ε β) :
    (Except.error e >>= g) = Except.error e := rfl

/-- Reduction of a successful bind. -/
theorem except_ok_bind {ε α β : Type} (a : α) (g : α → Except ε β) :
    (Except.ok a >>= g) = g a := rfl

/-- Did the computation succeed? -/
def exOk {ε α : Type} : Except ε α → Bool
  | .ok _ => true
  | .error _ => false

/-- Is the JSON value a string or null (the plain enum path's accepted kinds)? -/
def isStrOrNull : JValue → Bool
  | .str _ => true
  | .null => true
  | _ => false

/-- Is the JSON value a string, number or null (the paired path's kinds)? -/
def isStrNumOrNull : JValue → Bool
  | .str _ => true
  | .num _ => true
  | .null => true
  | _ => false

/-- C4 (amended): the paired path (`enumNames` present) accepts exactly the
string, number and null entries; the plain path accepts exactly string and
null entries — a numeric entry is fatal there too. In both paths every
failure is the `InvalidEnumValue` condition naming an offending entry of the
respective unaccepted kind. -/
theorem enum_value_validation :
    (∀ (l : List (JValue × String)),
      exOk (pairedVariants l) = l.all (fun p => isStrNumOrNull p.1)) ∧
    (∀ (vs : List JValue), exOk (plainVariants vs) = vs.all isStrOrNull) ∧
    (∀ (l : List (JValue × String)) e, pairedVariants l = .error e →
      ∃ v, e = GenError.invalidEnumValue v ∧ v ∈ l.map Prod.fst ∧ isStrNumOrNull v = false) ∧
    (∀ (vs : List JValue) e, plainVariants vs = .error e →
      ∃ v, e = GenError.invalidEnumValue v ∧ v ∈ vs ∧ isStrOrNull v = false) := by
  refine ⟨?_, ?_, ?_, ?_⟩
  · intro l
    induction l with
    | nil => rfl
    | cons p rest ih =>
      obtain ⟨v, nm⟩ := p
      cases v <;> cases hr : pairedVariants rest <;>
        simp_all [pairedVariants, exOk, isStrNumOrNull, except_error_bind,
          except_ok_bind] <;>
        try exact ih
  · intro vs
    induction vs with
    | nil => rfl
    | cons v rest ih =>
      cases v <;> cases hr : plainVariants rest <;>
        simp_all [plainVariants, exOk, isStrOrNull, except_error_bind,
          except_ok_bind]
  · intro l
    induction l with
    | nil => intro e h; exact Except.noConfusion h
    | cons p rest ih =>
      obtain ⟨v, nm⟩ := p
      intro e h
      cases v with
      | str s =>
        simp only [pairedVariants] at h
        cases hr : pairedVariants rest with
        | error e' =>
          rw [hr, except_error_bind, Except.error.injEq] at h
          obtain ⟨w, hw, hmem, hbad⟩ := ih e' hr
          exact ⟨w, by rw [← h, hw], List.mem_cons_of_mem _ hmem, hbad⟩
        | ok y =>
          obtain ⟨vs, opt, rep⟩ := y
          rw [hr, except_ok_bind] at h
          exact Except.noConfusion h
      | num n =>
        simp only [pairedVariants] at h
        cases hr : pairedVariants rest with
        | error e' =>
          rw [hr, except_error_bind, Except.error.injEq] at h
          obtain ⟨w, hw, hmem, hbad⟩ := ih e' hr
          exact ⟨w, by rw [← h, hw], List.mem_cons_of_mem _ hmem, hbad⟩
        | ok y =>
          obtain ⟨vs, opt, rep⟩ := y
          rw [hr, except_ok_bind] at h
          exact Except.noConfusion h
      | null =>
        simp only [pairedVariants] at h
        cases hr : pairedVariants rest with
        | error e' =>
          rw [hr, except_error_bind, Except.error.injEq] at h
          obtain ⟨w, hw, hmem, hbad⟩ := ih e' hr
          exact ⟨w, by rw [← h, hw], List.mem_cons_of_mem _ hmem, hbad⟩
        | ok y =>
          obtain ⟨vs, opt, rep⟩ := y
          rw [hr, except_ok_bind] at h
          exact Except.noConfusion h
      | bool b =>
        simp only [pairedVariants, Except.error.injEq] at h
        exact ⟨.bool b, h.symm, List.mem_cons_self _ _, rfl⟩
      | arr n =>
        simp only [pairedVariants, Except.error.injEq] at h
        exact ⟨.arr n, h.symm, List.mem_cons_self _ _, rfl⟩
      | obj n =>
        simp only [pairedVariants, Except.error.injEq] at h
        exact ⟨.obj n, h.symm, List.mem_cons_self _ _, rfl⟩
  · intro vs
    induction vs with
    | nil => intro e h; exact Except.noConfusion h
    | cons v rest ih =>
      intro e h
      cases v with
      | str s =>
        simp only [plainVariants] at h
        cases hr : plainVariants rest with
        | error e' =>
          rw [hr, except_error_bind, Except.error.injEq] at h
          obtain ⟨w, hw, hmem, hbad⟩ := ih e' hr
          exact ⟨w, by rw [← h, hw], List.mem_cons_of_mem _ hmem, hbad⟩
        | ok y =>
          obtain ⟨vs', opt⟩ := y
          rw [hr, except_ok_bind] at h
          exact Except.noConfusion h
      | null =>
        simp only [plainVariants] at h
        cases hr : plainVariants rest with
        | error e' =>
          rw [hr, except_error_bind, Except.error.injEq] at h
          obtain ⟨w, hw, hmem, hbad⟩ := ih e' hr
          exact ⟨w, by rw [← h, hw], List.mem_cons_of_mem _ hmem, hbad⟩
        | ok y =>
          obtain ⟨vs', opt⟩ := y
          rw [hr, except_ok_bind] at h
          exact Except.noConfusion h
      | num n =>
        simp only [plainVariants, Except.error.injEq] at h
        exact ⟨.num n, h.symm, List.mem_cons_self _ _, rfl⟩
      | bool b =>
        simp only [plainVariants, Except.error.injEq] at h
        exact ⟨.bool b, h.symm, List.mem_cons_self _ _, rfl⟩
      | arr n =>
        simp only [plainVariants, Except.error.injEq] at h
        exact ⟨.arr n, h.symm, List.mem_cons_self _ _, rfl⟩
      | obj n =>
        simp only [plainVariants, Except.error.injEq] at h
        exact ⟨.obj n, h.symm, List.mem_cons_self _ _, rfl⟩


/-- C4 (counterexample): a number in the *plain* enum path aborts generation
with `InvalidEnumValue`, where the claim says every number is accepted in
either path. -/
theorem plain_enum_number_counterexample :
    expandSchema 2 env0 "E" plainNumEnumSchema initState =
      .error (.invalidEnumValue (.num 1)) ∧ isStrNumOrNull (.num 1) = true := by
  decide

/-- C4 (witness): the amended characterisation applied at concrete lists — a
string-only plain enum succeeds, a numeric plain entry fails with
`InvalidEnumValue`, and the paired path accepts a numeric entry. -/
theorem enum_value_validation_witness :
    exOk (plainVariants [JValue.str "a"]) = true ∧
    (∃ v, GenError.invalidEnumValue (JValue.num 1) = GenError.invalidEnumValue v ∧
      v ∈ [JValue.num 1] ∧ isStrOrNull v = false) ∧
    exOk (pairedVariants [(JValue.num 1, "A")]) = true :=
  ⟨enum_value_validation.2.1 [JValue.str "a"],
   enum_value_validation.2.2.2 [JValue.num 1] (.invalidEnumValue (.num 1)) (by decide),
   enum_value_validation.1 [(JValue.num 1, "A")]⟩

/-! ## The claim about paired nullable enums (C8) -/

/-- C8: the paired enum `["a", null, "b"]` with names `["A","NullName","B"]`
is emitted as `pub type Color = Option<Color_>` over a non-nullable enum
`Color_` holding exactly the two non-null variants, with null omitted; and
whenever a non-empty `enumNames` list's length differs from the `enum`
list's, generation aborts with `EnumNamesLengthMismatch`. -/
theorem paired_enum_nullable (f : Nat) :
    (expandSchema 3 env0 "Color" colorSchema initState =
      .ok (.optionalEnum "Color" "Color_" none false
            [⟨"A", none, some "a", none⟩, ⟨"B", none, some "b", none⟩],
           ⟨"Color", "", []⟩)) ∧
    (∀ (env : Env) (name : String) (st : ExpState) (values : List JValue)
       (names : List String), names ≠ [] → names.length ≠ values.length → values ≠ [] →
       expandSchema (f+2) env name (enumSchemaOf values names) st =
         .error (.enumNamesLengthMismatch names.length values.length)) := by
  constructor
  · decide
  · intro env name st values names hn hlen hv
    cases names with
    | nil => exact absurd rfl hn
    | cons n0 ns =>
      cases values with
      | nil => exact absurd rfl hv
      | cons v0 vs =>
        simp only [expandSchema, expandDefinitions, schemaView, expandFieldsGo,
          expandEnum, enumSchemaOf, Schema.definitions, Schema.ref_, Schema.meta,
          Schema.all_of, Schema.required, Schema.properties, Schema.enum_,
          Schema.enum_names, Schema.additional_properties, Schema.pattern_properties,
          isBoolFalse, except_ok_bind, except_error_bind, emptyMeta]
        have hlen2 : ¬ ns.length = vs.length := fun h => hlen (by simp [h])
        simp [hlen2]
        exact except_error_bind _ _

/-- C8 (witness): the length-mismatch arm applied at a concrete enum with two
names and one value. -/
theorem paired_enum_nullable_witness :
    expandSchema 2 env0 "E" (enumSchemaOf [JValue.str "x"] ["A", "B"]) initState =
      .error (.enumNamesLengthMismatch 2 1) :=
  (paired_enum_nullable 0).2 env0 "E" initState [JValue.str "x"] ["A", "B"]
    (by decide) (by decide) (by decide)

/-! ## The claim about oneOf unions (C1) -/

/-- C1 (counterexample): for the two id-less `$ref` branches the registered
union's variants are named `Variant0`/`Variant1` with payload types `Cat`
and `Dog` — not `Cat(Cat)`/`Dog(Dog)` as the claim states. -/
theorem one_of_union_counterexample :
    expandType_ 5 env0 oneOfPetSchema ownerPetState =
      .ok (ftOf "OwnerPet", ⟨"Owner", "pet",
        [("OwnerPet", .untaggedUnion "OwnerPet"
          [("Variant0", "Cat"), ("Variant1", "Dog")])]⟩) ∧
    ([("Variant0", "Cat"), ("Variant1", "Dog")] : List (String × String)) ≠
      [("Cat", "Cat"), ("Dog", "Dog")] := by
  decide

/-- C1 (amended): expanding the two-branch `oneOf` as field `pet` of `Owner`
registers a new *untagged* union named `OwnerPet` whose variants carry the
referenced payload types `Cat` and `Dog` in branch order; the variant names
are the positional `Variant0`/`Variant1`, because a `$ref` branch without an
`id` is named `Variant{index}`. -/
theorem one_of_union_registration :
    ∃ st, expandType_ 5 env0 oneOfPetSchema ownerPetState = .ok (ftOf "OwnerPet", st) ∧
      st.types = [("OwnerPet", Decl.untaggedUnion "OwnerPet"
        [("Variant0", "Cat"), ("Variant1", "Dog")])] :=
  ⟨⟨"Owner", "pet", [("OwnerPet", .untaggedUnion "OwnerPet"
      [("Variant0", "Cat"), ("Variant1", "Dog")])]⟩, by decide, by decide⟩

/-! ## The claim about reference-resolver failures (C9) -/

/-- C9: `type_ref` fails exactly on an empty fragment with no configured root
name, and then always with `MissingRootName`; every `schema_ref` failure is
`UnresolvedReference` at a named (non-`definitions`, non-`#`-terminated)
path segment; and a resolver failure on a `$ref` aborts the surrounding
expansion with the same error. -/
theorem reference_resolver_failures :
    (∀ (rn : Option String) (s : String),
      (∃ e, typeRef rn s = .error e) ↔ (fragmentOf s = "" ∧ rn = none)) ∧
    (∀ (rn : Option String) (s : String) (e : GenError),
      typeRef rn s = .error e → e = .missingRootName) ∧
    (∀ (root : Schema) (s : String) (l : List String) (sch : Schema) (e : GenError),
      schemaRefGo root s l sch = .error e →
      ∃ comp, e = .unresolvedReference s comp ∧ comp ∈ l ∧ comp ≠ "definitions" ∧
        comp.data.getLast? ≠ some '#') ∧
    (∀ (f : Nat) (env : Env) (s : Schema) (st : ExpState) (r : String) (e : GenError),
      s.ref_ = some r → typeRef env.rootName r = .error e →
      expandType_ (f+1) env s st = .error e) := by
  refine ⟨?_, ?_, ?_, ?_⟩
  · intro rn s
    by_cases hf : fragmentOf s = "" <;> cases rn <;> simp [typeRef, hf]
  · intro rn s e h
    by_cases hf : fragmentOf s = "" <;> cases rn <;> simp [typeRef, hf] at h
    exact h.symm
  · intro root s l
    induction l with
    | nil => intro sch e h; exact Except.noConfusion h
    | cons comp rest ih =>
      intro sch e h
      rw [schemaRefGo] at h
      by_cases h1 : comp.data.getLast? = some '#'
      · rw [if_pos h1] at h
        obtain ⟨c, hc, hm, hd, hh⟩ := ih root e h
        exact ⟨c, hc, List.mem_cons_of_mem _ hm, hd, hh⟩
      · rw [if_neg h1] at h
        by_cases h2 : comp = "definitions"
        · rw [if_pos h2] at h
          obtain ⟨c, hc, hm, hd, hh⟩ := ih sch e h
          exact ⟨c, hc, List.mem_cons_of_mem _ hm, hd, hh⟩
        · rw [if_neg h2] at h
          cases hg : alGet sch.definitions comp with
          | some d =>
            rw [hg] at h
            obtain ⟨c, hc, hm, hd, hh⟩ := ih d e h
            exact ⟨c, hc, List.mem_cons_of_mem _ hm, hd, hh⟩
          | none =>
            rw [hg, Except.error.injEq] at h
            exact ⟨comp, h.symm, List.mem_cons_self _ _, h2, h1⟩
  · intro f env s st r e hr he
    rw [expandType_, hr]
    show (typeRef env.rootName r >>= fun t => Except.ok (ftOf t, st)) = Except.error e
    rw [he, except_error_bind]

/-- C9 (witness): the characterisation applied at concrete failures — the
fragment-less reference `"#"` without a root name, a missing definition
`Foo`, and the abort of an expansion whose node references the root. -/
theorem reference_resolver_failures_witness :
    (∃ e, typeRef none "#" = .error e) ∧
    (∃ comp, GenError.unresolvedReference "definitions/Foo" "Foo" =
        .unresolvedReference "definitions/Foo" comp ∧ comp ∈ ["definitions", "Foo"] ∧
        comp ≠ "definitions" ∧ comp.data.getLast? ≠ some '#') ∧
    expandType_ 1 env0 (refSchema "") initState = .error .missingRootName :=
  ⟨(reference_resolver_failures.1 none "#").2 ⟨rfl, rfl⟩,
   reference_resolver_failures.2.2.1 emptySchema "definitions/Foo"
     ["definitions", "Foo"] emptySchema _ rfl,
   reference_resolver_failures.2.2.2 0 env0 (refSchema "") initState "" _ rfl rfl⟩

/-! ## The claim about the root title (C10) -/

/-- C10: a title-less root makes `expand` abort with no output even when a
root name is configured; on success the root declaration appended last is
named by the title; and the configured root name influences `type_ref` only
on an empty fragment, where it is the resolved name. -/
theorem expand_title_behaviour :
    (∀ (fuel : Nat) (env : Env) (s : Schema) (st : ExpState), s.title = none →
      expand fuel env s st = .error .noTitle) ∧
    (∀ (fuel : Nat) (env : Env) (s : Schema) (st : ExpState) (t : String)
       (out : List Decl) (st' : ExpState), s.title = some t →
      expand fuel env s st = .ok (out, st') →
      ∃ d, st'.types.getLast? = some (t, d)) ∧
    (∀ (rn₁ rn₂ : Option String) (s : String), fragmentOf s ≠ "" →
      typeRef rn₁ s = typeRef rn₂ s) ∧
    (∀ (r : String) (s : String), fragmentOf s = "" →
      typeRef (some r) s =
        .ok (replace_numeric_start (replace_invalid_identifier_chars (toPascal r)))) := by
  refine ⟨?_, ?_, ?_, ?_⟩
  · intro fuel env s st ht
    rw [expand, ht]
  · intro fuel env s st t out st' ht h
    rw [expand, ht] at h
    obtain ⟨⟨decl, st₁⟩, hs, h⟩ := except_bind_ok h
    have h' : st' = pushType st₁ t (match s.description with
        | some c => Decl.doc c decl | none => decl) := by
      rw [Except.ok.injEq, Prod.mk.injEq] at h
      exact h.2.symm
    subst h'
    refine ⟨(match s.description with | some c => Decl.doc c decl | none => decl), ?_⟩
    simp [pushType, List.getLast?_concat]
  · intro rn₁ rn₂ s hf
    simp [typeRef, hf]
  · intro r s hf
    simp [typeRef, hf]

/-- The declaration generated for the Pet document of spec §8. -/
def petDecl : Decl :=
  .structDecl "Pet" false false none
    [⟨"age", none, "Option<i64>", true,
      ["skip_serializing_if=\"Option::is_none\""], none⟩,
     ⟨"name", none, "String", false, [], none⟩]

/-- C10 (witness): the title behaviour at concrete documents — the Pet
document (title `Pet`) registers `Pet` last; a title-less document aborts. -/
theorem expand_title_behaviour_witness :
    expand 9 env0 strSchema initState = .error .noTitle ∧
    (∃ d, (⟨"Pet", "name", [("Pet", petDecl)]⟩ : ExpState).types.getLast? =
      some ("Pet", d)) :=
  ⟨expand_title_behaviour.1 9 env0 strSchema initState rfl,
   expand_title_behaviour.2.1 9 env0 petSchema initState "Pet" [petDecl]
     ⟨"Pet", "name", [("Pet", petDecl)]⟩ rfl (by decide)⟩

/-- The registry only grows: `st'` carries the entries of `st` as a prefix. -/
def typesExtend (st st' : ExpState) : Prop := ∃ t, st'.types = st.types ++ t

theorem typesExtend_refl (st : ExpState) : typesExtend st st := ⟨[], by simp⟩

theorem typesExtend_of_eq {st st' : ExpState} (h : st'.types = st.types) :
    typesExtend st st' := ⟨[], by simp [h]⟩

theorem typesExtend_trans {a b c : ExpState} (h1 : typesExtend a b)
    (h2 : typesExtend b c) : typesExtend a c := by
  obtain ⟨t1, e1⟩ := h1
  obtain ⟨t2, e2⟩ := h2
  exact ⟨t1 ++ t2, by rw [e2, e1, List.append_assoc]⟩

theorem typesExtend_push (st : ExpState) (n : String) (d : Decl) :
    typesExtend st (pushType st n d) := ⟨[(n, d)], rfl⟩

/-- The append-only invariant of the type registry: every successful call of
every expander function leaves the incoming registry entries in place, in
order, appending only. -/
theorem registryExtends : ∀ fuel : Nat,
    (∀ env tn req s st r st',
      expandType fuel env tn req s st = .ok (r, st') → typesExtend st st') ∧
    (∀ env s st r st',
      expandType_ fuel env s st = .ok (r, st') → typesExtend st st') ∧
    (∀ env t s st r st',
      expandSingle fuel env t s st = .ok (r, st') → typesExtend st st') ∧
    (∀ env sv i br st r st',
      expandOneOfGo fuel env sv i br st = .ok (r, st') → typesExtend st st') ∧
    (∀ env defs st st',
      expandDefinitions fuel env defs st = .ok st' → typesExtend st st') ∧
    (∀ env tn rl props flag st r st',
      expandFieldsGo fuel env tn rl props flag st = .ok (r, st') → typesExtend st st') ∧
    (∀ env n s st d st',
      expandSchema fuel env n s st = .ok (d, st') → typesExtend st st') := by
  intro fuel
  induction fuel with
  | zero =>
    refine ⟨?_, ?_, ?_, ?_, ?_, ?_, ?_⟩
    · intro env tn req s st r st' h; exact Except.noConfusion h
    · intro env s st r st' h; exact Except.noConfusion h
    · intro env t s st r st' h; exact Except.noConfusion h
    · intro env sv i br st r st' h
      unfold expandOneOfGo at h
      split at h
      · rw [Except.ok.injEq, Prod.mk.injEq] at h
        exact typesExtend_of_eq (by rw [h.2])
      · exact Except.noConfusion h
    · intro env defs st st' h
      unfold expandDefinitions at h
      split at h
      · rw [Except.ok.injEq] at h
        exact typesExtend_of_eq (by rw [h])
      · exact Except.noConfusion h
    · intro env tn rl props flag st r st' h
      unfold expandFieldsGo at h
      split at h
      · rw [Except.ok.injEq, Prod.mk.injEq] at h
        exact typesExtend_of_eq (by rw [h.2])
      · exact Except.noConfusion h
    · intro env n s st d st' h; exact Except.noConfusion h
  | succ f ih =>
    obtain ⟨ihT, ihT_, ihS, ihO, ihD, ihF, ihSch⟩ := ih
    refine ⟨?_, ?_, ?_, ?_, ?_, ?_, ?_⟩
    · -- expandType
      intro env tn req s st r st' h
      unfold expandType at h
      obtain ⟨⟨r1, st₁⟩, h1, h⟩ := except_bind_ok h
      rw [Except.ok.injEq, Prod.mk.injEq] at h
      exact typesExtend_trans (ihT_ _ _ _ _ _ h1) (typesExtend_of_eq (by rw [← h.2]))
    · -- expandType_
      intro env s st r st' h
      unfold expandType_ at h
      split at h
      · -- $ref branch
        obtain ⟨t, h1, h⟩ := except_bind_ok h
        rw [Except.ok.injEq, Prod.mk.injEq] at h
        exact typesExtend_of_eq (by rw [h.2])
      · -- not $ref
        split at h
        · -- anyOf pair
          obtain ⟨simple, h1, h⟩ := except_bind_ok h
          obtain ⟨arr, h2, h⟩ := except_bind_ok h
          split at h
          · -- array-typed second branch
            split at h
            · exact Except.noConfusion h
            · obtain ⟨iv, h3, h⟩ := except_bind_ok h
              split at h
              · obtain ⟨⟨ft0, st₁⟩, h4, h⟩ := except_bind_ok h
                rw [Except.ok.injEq, Prod.mk.injEq] at h
                exact typesExtend_trans (ihT_ _ _ _ _ _ h4)
                  (typesExtend_of_eq (by rw [h.2]))
              · rw [Except.ok.injEq, Prod.mk.injEq] at h
                exact typesExtend_of_eq (by rw [h.2])
          · rw [Except.ok.injEq, Prod.mk.injEq] at h
            exact typesExtend_of_eq (by rw [h.2])
        · -- not the one-or-many shape
          split at h
          · -- oneOf with at least two branches
            obtain ⟨⟨vs, st₁⟩, h1, h⟩ := except_bind_ok h
            rw [Except.ok.injEq, Prod.mk.injEq] at h
            exact typesExtend_trans (ihO _ _ _ _ _ _ _ h1)
              (typesExtend_trans (typesExtend_push _ _ _)
                (typesExtend_of_eq (by rw [h.2])))
          · -- no oneOf
            split at h
            · -- two declared types
              split at h
              · -- one of them is null
                obtain ⟨⟨inner, st₁⟩, h1, h⟩ := except_bind_ok h
                rw [Except.ok.injEq, Prod.mk.injEq] at h
                have hext : typesExtend st st₁ := by
                  revert h1
                  split
                  · intro h1
                    exact ihS _ _ _ _ _ _ h1
                  · intro h1
                    rw [Except.ok.injEq, Prod.mk.injEq] at h1
                    exact typesExtend_of_eq (by rw [h1.2])
                exact typesExtend_trans hext (typesExtend_of_eq (by rw [h.2]))
              · rw [Except.ok.injEq, Prod.mk.injEq] at h
                exact typesExtend_of_eq (by rw [h.2])
            · -- one declared type
              exact ihS _ _ _ _ _ _ h
            · -- no usable type
              rw [Except.ok.injEq, Prod.mk.injEq] at h
              exact typesExtend_of_eq (by rw [h.2])
    · -- expandSingle
      intro env t s st r st' h
      unfold expandSingle at h
      split at h
      · -- string
        split at h <;>
          (rw [Except.ok.injEq, Prod.mk.injEq] at h
           exact typesExtend_of_eq (by rw [h.2]))
      · -- integer
        rw [Except.ok.injEq, Prod.mk.injEq] at h
        exact typesExtend_of_eq (by rw [h.2])
      · -- boolean
        rw [Except.ok.injEq, Prod.mk.injEq] at h
        exact typesExtend_of_eq (by rw [h.2])
      · -- number
        rw [Except.ok.injEq, Prod.mk.injEq] at h
        exact typesExtend_of_eq (by rw [h.2])
      · -- object
        split at h
        · -- inline struct
          obtain ⟨⟨tokens, st₁⟩, h1, h⟩ := except_bind_ok h
          rw [Except.ok.injEq, Prod.mk.injEq] at h
          exact typesExtend_trans (ihSch _ _ _ _ _ _ h1)
            (typesExtend_trans (typesExtend_push _ _ _)
              (typesExtend_of_eq (by rw [h.2])))
        · -- map
          obtain ⟨⟨prop, st₁⟩, h1, h⟩ := except_bind_ok h
          rw [Except.ok.injEq, Prod.mk.injEq] at h
          have hext : typesExtend st st₁ := by
            revert h1
            split
            · intro h1
              obtain ⟨⟨ft, st₂⟩, h2, h1⟩ := except_bind_ok h1
              rw [Except.ok.injEq, Prod.mk.injEq] at h1
              exact typesExtend_trans (ihT_ _ _ _ _ _ h2)
                (typesExtend_of_eq (by rw [h1.2]))
            · intro h1
              rw [Except.ok.injEq, Prod.mk.injEq] at h1
              exact typesExtend_of_eq (by rw [h1.2])
          exact typesExtend_trans hext (typesExtend_of_eq (by rw [h.2]))
      · -- array
        split at h
        · rw [Except.ok.injEq, Prod.mk.injEq] at h
          exact typesExtend_of_eq (by rw [h.2])
        · obtain ⟨⟨ft, st₂⟩, h1, h⟩ := except_bind_ok h
          rw [Except.ok.injEq, Prod.mk.injEq] at h
          have e1 := ihT_ _ _ _ _ _ h1
          exact typesExtend_trans (typesExtend_trans (typesExtend_of_eq rfl) e1)
            (typesExtend_of_eq (by rw [h.2]))
      · -- null and any other type
        rw [Except.ok.injEq, Prod.mk.injEq] at h
        exact typesExtend_of_eq (by rw [h.2])
    · -- expandOneOfGo
      intro env sv i br st r st' h
      unfold expandOneOfGo at h
      split at h
      · rw [Except.ok.injEq, Prod.mk.injEq] at h
        exact typesExtend_of_eq (by rw [h.2])
      · split at h
        · exact Except.noConfusion h
        rename_i f2 heq
        obtain rfl : f = f2 := by omega
        split at h
        · obtain ⟨t, h1, h⟩ := except_bind_ok h
          obtain ⟨⟨vs, st₁⟩, h2, h⟩ := except_bind_ok h
          rw [Except.ok.injEq, Prod.mk.injEq] at h
          exact typesExtend_trans (ihO _ _ _ _ _ _ _ h2)
            (typesExtend_of_eq (by rw [h.2]))
        · obtain ⟨⟨d, st₁⟩, h1, h⟩ := except_bind_ok h
          obtain ⟨⟨vs, st₃⟩, h2, h⟩ := except_bind_ok h
          rw [Except.ok.injEq, Prod.mk.injEq] at h
          exact typesExtend_trans (ihSch _ _ _ _ _ _ h1)
            (typesExtend_trans (typesExtend_push _ _ _)
              (typesExtend_trans (ihO _ _ _ _ _ _ _ h2)
                (typesExtend_of_eq (by rw [h.2]))))
    · -- expandDefinitions
      intro env defs st st' h
      unfold expandDefinitions at h
      split at h
      · rw [Except.ok.injEq] at h
        exact typesExtend_of_eq (by rw [h])
      · split at h
        · exact Except.noConfusion h
        rename_i f2 heq
        obtain rfl : f = f2 := by omega
        obtain ⟨⟨decl, st₁⟩, h1, h⟩ := except_bind_ok h
        exact typesExtend_trans (ihSch _ _ _ _ _ _ h1)
          (typesExtend_trans (typesExtend_push _ _ _) (ihD _ _ _ _ h))
    · -- expandFieldsGo
      intro env tn rl props flag st r st' h
      unfold expandFieldsGo at h
      split at h
      · rw [Except.ok.injEq, Prod.mk.injEq] at h
        exact typesExtend_of_eq (by rw [h.2])
      · split at h
        · exact Except.noConfusion h
        rename_i f2 heq
        obtain rfl : f = f2 := by omega
        obtain ⟨⟨ft, st₂⟩, h1, h⟩ := except_bind_ok h
        obtain ⟨⟨fds, st₃⟩, h2, h⟩ := except_bind_ok h
        rw [Except.ok.injEq, Prod.mk.injEq] at h
        have e1 := ihT _ _ _ _ _ _ _ h1
        exact typesExtend_trans (typesExtend_trans (typesExtend_of_eq rfl) e1)
          (typesExtend_trans (ihF _ _ _ _ _ _ _ _ h2)
            (typesExtend_of_eq (by rw [h.2])))
    · -- expandSchema
      intro env n s st d st' h
      unfold expandSchema at h
      obtain ⟨st₁, h1, h⟩ := except_bind_ok h
      obtain ⟨eff, h2, h⟩ := except_bind_ok h
      obtain ⟨p, h3, h⟩ := except_bind_ok h
      split at h
      rename_i fields flag st₃
      have eF := ihF _ _ _ _ _ _ _ _ h3
      have e1 : typesExtend st st₃ :=
        typesExtend_trans (ihD _ _ _ _ h1)
          (typesExtend_trans (typesExtend_of_eq rfl) eF)
      split at h
      all_goals
        split at h
        · simp only [Except.ok.injEq, Prod.mk.injEq] at h
          exact typesExtend_trans e1 (typesExtend_of_eq (by rw [h.2]))
        · split at h
          · obtain ⟨d1, h4, h⟩ := except_bind_ok h
            simp only [Except.ok.injEq, Prod.mk.injEq] at h
            exact typesExtend_trans e1 (typesExtend_of_eq (by rw [h.2]))
          · obtain ⟨q, h4, h⟩ := except_bind_ok h
            split at h
            rename_i ft st₄
            have e2 : typesExtend st st₄ :=
              typesExtend_trans e1 (ihT _ _ _ _ _ _ _ h4)
            split at h <;>
              (simp only [Except.ok.injEq, Prod.mk.injEq] at h
               exact typesExtend_trans e2 (typesExtend_of_eq (by rw [h.2])))

/-! ## The claims about the type registry (C2) -/

/-- C2 (counterexample data): the alias registered for definition `AB`. -/
def abAlias : Decl := .aliasDecl "AB" "serde_json::Value"

/-- C2 (counterexample data): the struct registered for the inline field `b`
of root `A`, also named `AB`. -/
def abStruct : Decl :=
  .structDecl "AB" true false none
    [⟨"x", none, "Option<String>", false,
      ["skip_serializing_if=\"Option::is_none\""], none⟩]

/-- C2 (counterexample data): the root struct `A`. -/
def aStruct : Decl :=
  .structDecl "A" true false none
    [⟨"b", none, "Option<AB>", false,
      ["skip_serializing_if=\"Option::is_none\""], none⟩]

/-- C2 (counterexample): registered names are *not* pairwise distinct — the
document titled `A` with definition `AB` and inline object field `b` (whose
nested type is also named `AB`) completes with two registry entries named
`AB`. -/
theorem registry_duplicate_names_counterexample :
    expand 10 env0 c2doc initState =
      .ok ([abAlias, abStruct, aStruct],
        ⟨"A", "x", [("AB", abAlias), ("AB", abStruct), ("A", aStruct)]⟩) ∧
    [("AB", abAlias), ("AB", abStruct), ("A", aStruct)].map Prod.fst =
      ["AB", "AB", "A"] ∧
    ¬ (["AB", "AB", "A"] : List String).Nodup := by
  refine ⟨by decide, by decide, by decide⟩

/-- C2 (amended): on every completed generation the registry is append-only
(the incoming entries survive as a prefix, in order) and the emitted
declaration sequence equals the registry contents in exact insertion order;
registered names, however, are not guaranteed pairwise distinct. -/
theorem registry_append_only (fuel : Nat) (env : Env) (s : Schema) (st : ExpState)
    (out : List Decl) (st' : ExpState) (h : expand fuel env s st = .ok (out, st')) :
    (∃ t, st'.types = st.types ++ t) ∧ out = st'.types.map (fun p => p.2) := by
  unfold expand at h
  split at h
  · exact Except.noConfusion h
  rename_i t ht
  obtain ⟨p, h1, h⟩ := except_bind_ok h
  split at h
  rename_i decl st₁
  simp only [Except.ok.injEq, Prod.mk.injEq] at h
  obtain ⟨ho, hs⟩ := h
  subst hs
  refine ⟨?_, ho.symm⟩
  obtain ⟨t1, ht1⟩ := (registryExtends fuel).2.2.2.2.2.2 _ _ _ _ _ _ h1
  exact ⟨t1 ++ [(t, match s.description with
      | some c => Decl.doc c decl | none => decl)], by simp [pushType, ht1]⟩

/-- C2 (witness): the append-only and emission-order facts at the concrete
Pet run. -/
theorem registry_append_only_witness :
    (∃ t, (⟨"Pet", "name", [("Pet", petDecl)]⟩ : ExpState).types =
      initState.types ++ t) ∧
    [petDecl] = [("Pet", petDecl)].map (fun p => p.2) :=
  registry_append_only 9 env0 petSchema initState [petDecl]
    ⟨"Pet", "name", [("Pet", petDecl)]⟩ (by decide)

/-! ## The claim about the Default derive (C6) -/

/-- The `FieldExpander.default` flag after the property fold equals the
incoming flag conjoined with "every collected field's final type is an
`Option`". -/
theorem expandFieldsGo_default_flag :
    ∀ (props : List (String × Schema)) (fuel : Nat) (env : Env) (tn : String)
      (rl : List String) (flag : Bool) (st : ExpState) (fds : List SField)
      (flagF : Bool) (st' : ExpState),
      expandFieldsGo fuel env tn rl props flag st = .ok ((fds, flagF), st') →
      flagF = (flag && fds.all (fun fd => strStartsWith fd.typ "Option<")) := by
  intro props
  induction props with
  | nil =>
    intro fuel env tn rl flag st fds flagF st' h
    unfold expandFieldsGo at h
    simp only [Except.ok.injEq, Prod.mk.injEq] at h
    obtain ⟨⟨h1, h2⟩, -⟩ := h
    subst h1
    subst h2
    simp
  | cons p rest ih =>
    intro fuel env tn rl flag st fds flagF st' h
    unfold expandFieldsGo at h
    split at h
    · exact Except.noConfusion h
    obtain ⟨q, h1, h⟩ := except_bind_ok h
    split at h
    rename_i ft st₂
    obtain ⟨q2, h2, h⟩ := except_bind_ok h
    split at h
    rename_i fds1 flagF1 st₃
    simp only [Except.ok.injEq, Prod.mk.injEq] at h
    obtain ⟨⟨hf, hfl⟩, hst⟩ := h
    subst hf
    subst hfl
    have hrec := ih _ _ _ _ _ _ _ _ _ h2
    rw [hrec, List.all_cons, ← Bool.and_assoc]

/-- `expandEnum` never produces a struct declaration. -/
theorem expandEnum_no_struct (nm : String) (rn : Option String) (vals : List JValue)
    (names : Option (List String)) (n : String) (dd du : Bool) (rn2 : Option String)
    (fields : List SField) :
    expandEnum nm rn vals names ≠ .ok (.structDecl n dd du rn2 fields) := by
  intro h
  unfold expandEnum at h
  dsimp only at h
  split at h
  · obtain ⟨⟨vars, opt⟩, h1, h⟩ := except_bind_ok h
    split at h <;> simp at h
  · split at h
    · exact Except.noConfusion h
    · obtain ⟨⟨vars, opt, rep⟩, h1, h⟩ := except_bind_ok h
      split at h <;> simp at h

/-- C6 (amended): an emitted struct derives `Default` exactly when every one
of its fields' final type expressions is an `Option` type. A field may carry
the implicit-default marker (`#[serde(default)]`) without being
`Option`-typed, and such a field prevents the derive. -/
theorem struct_default_derivation (fuel : Nat) (env : Env) (name : String)
    (s : Schema) (st : ExpState) (n : String) (dd du : Bool) (rn : Option String)
    (fields : List SField) (st' : ExpState)
    (h : expandSchema fuel env name s st = .ok (.structDecl n dd du rn fields, st')) :
    dd = fields.all (fun fd => strStartsWith fd.typ "Option<") := by
  cases fuel with
  | zero => exact Except.noConfusion h
  | succ f =>
    unfold expandSchema at h
    obtain ⟨st₁, h1, h⟩ := except_bind_ok h
    obtain ⟨eff, h2, h⟩ := except_bind_ok h
    obtain ⟨p, h3, h⟩ := except_bind_ok h
    split at h
    rename_i fds flag st₃
    have hflag := expandFieldsGo_default_flag _ _ _ _ _ _ _ _ _ _ h3
    split at h
    all_goals
      split at h
      · simp only [Except.ok.injEq, Prod.mk.injEq, Decl.structDecl.injEq] at h
        obtain ⟨⟨-, hdd, -, -, hfds⟩, -⟩ := h
        subst hfds
        rw [← hdd, hflag, Bool.true_and]
      · split at h
        · obtain ⟨d1, h4, h⟩ := except_bind_ok h
          simp only [Except.ok.injEq, Prod.mk.injEq] at h
          exact absurd (h.1 ▸ h4) (expandEnum_no_struct _ _ _ _ _ _ _ _ _)
        · obtain ⟨q, h4, h⟩ := except_bind_ok h
          split at h
          rename_i ft st₄
          split at h <;> simp at h

/-- C6 (counterexample): in the struct whose only field is the one-or-many
`anyOf`, the field's synthesized descriptor is implicitly defaultable
(`default := true`, serialized with `#[serde(default)]`), yet the emitted
struct does *not* derive `Default`, because the field's final type
`Vec<String>` is not an `Option`. -/
theorem struct_default_counterexample :
    expandSchema 6 env0 "T" vecDefaultStructSchema initState =
      .ok (.structDecl "T" false false none
        [⟨"x", none, "Vec<String>", true,
          ["with=\"::schemafy_core::one_or_many\""], none⟩],
        ⟨"T", "x", []⟩) ∧
    ([⟨"x", none, "Vec<String>", true,
        ["with=\"::schemafy_core::one_or_many\""], none⟩] : List SField).all
      (fun fd => fd.default) = true := by
  refine ⟨by decide, by decide⟩

/-- C6 (witness): the amended characterisation applied at the concrete Pet
struct, whose `name` field is not `Option`-typed. -/
theorem struct_default_derivation_witness :
    false = ([⟨"age", none, "Option<i64>", true,
        ["skip_serializing_if=\"Option::is_none\""], none⟩,
      ⟨"name", none, "String", false, [], none⟩] : List SField).all
      (fun fd => strStartsWith fd.typ "Option<") :=
  struct_default_derivation 6 env0 "Pet" petSchema initState "Pet" false false none _
    ⟨"Pet", "name", []⟩ (by decide)

/-! ## The claim about nested names and the ancestor chain (C7) -/

/-- Expanding the fixed field `a` of `Root` either runs out of fuel or
registers exactly `RootAB` then `RootA` — for every fuel amount and every
expander configuration (the subtree contains no references, so neither the
root document nor the configured root name is consulted). -/
theorem c7_field_a (g : Nat) (env : Env) :
    expandType g env "Root" false aS ⟨"Root", "a", []⟩ = .error .fuelOut ∨
    expandType g env "Root" false aS ⟨"Root", "a", []⟩ =
      .ok (⟨"Option<RootA>", ["skip_serializing_if=\"Option::is_none\""], false⟩,
        ⟨"Root", "b", [("RootAB", bD), ("RootA", aD)]⟩) := by
  match g with
  | 0 | 1 | 2 | 3 | 4 | 5 | 6 | 7 | 8 | 9 => exact Or.inl rfl
  | g + 10 => exact Or.inr rfl

/-- C7: for every content of the unrelated sibling field `z` and every fuel
amount, a completed expansion of the `Root` document registers the nested
type of `b` under the ancestor-chain name `RootAB` — with the identical
declaration — followed by `RootA`, at the head of the registry. -/
theorem nested_name_ancestor_chain (sib : Schema) (f : Nat) (out : List Decl)
    (st' : ExpState)
    (h : expand f (env7 sib) (c7doc sib) initState = .ok (out, st')) :
    ∃ rest, st'.types = [("RootAB", bD), ("RootA", aD)] ++ rest := by
  unfold expand at h
  obtain ⟨⟨decl, st₁⟩, hS, h⟩ := except_bind_ok h
  simp only [Except.ok.injEq, Prod.mk.injEq] at h
  obtain ⟨-, hs'⟩ := h
  cases f with
  | zero => exact Except.noConfusion hS
  | succ f =>
    unfold expandSchema at hS
    obtain ⟨st₂, hD, hS⟩ := except_bind_ok hS
    rw [show (c7doc sib).definitions = ([] : List (String × Schema)) from rfl] at hD
    unfold expandDefinitions at hD
    simp only [Except.ok.injEq] at hD
    subst hD
    obtain ⟨eff, hV, hS⟩ := except_bind_ok hS
    cases f with
    | zero => exact Except.noConfusion hV
    | succ f =>
      have heff : c7doc sib = eff := Except.ok.inj hV
      subst heff
      obtain ⟨p, hF, hS⟩ := except_bind_ok hS
      replace hF : expandFieldsGo (f+1) (env7 sib) "Root" []
          [("a", aS), ("z", sib)] true ⟨"Root", "", []⟩ = .ok p := hF
      unfold expandFieldsGo at hF
      obtain ⟨q, hTa, hF⟩ := except_bind_ok hF
      replace hTa : expandType f (env7 sib) "Root" false aS
          ⟨"Root", "a", []⟩ = .ok q := hTa
      rcases c7_field_a f (env7 sib) with hc | hc
      · rw [hc] at hTa
        exact Except.noConfusion hTa
      · rw [hc] at hTa
        have hq := Except.ok.inj hTa
        subst hq
        obtain ⟨q2, hFz, hF⟩ := except_bind_ok hF
        split at hF
        rename_i fds2 flagF2 st₄
        simp only [Except.ok.injEq] at hF
        subst hF
        split at hS
        rename_i fieldsV flagV stV heq
        simp only [Prod.mk.injEq] at heq
        obtain ⟨⟨hf1, hf2⟩, hf3⟩ := heq
        subst hf1
        subst hf2
        subst hf3
        obtain ⟨t1, ht1⟩ := (registryExtends f).2.2.2.2.2.1 _ _ _ _ _ _ _ _ hFz
        split at hS
        all_goals
          split at hS
          · simp only [Except.ok.injEq, Prod.mk.injEq] at hS
            obtain ⟨-, hs3⟩ := hS
            subst hs3
            subst hs'
            refine ⟨t1 ++ [("Root", match (c7doc sib).description with
              | some c => Decl.doc c decl | none => decl)], ?_⟩
            simp [pushType, ht1]
          · rename_i hcond
            exact absurd (Or.inl (by simp)) hcond

/-- C7 (witness): the theorem applied at the concrete document whose sibling
field `z` is a plain string schema, with fuel 30; the full run registers
`RootAB`, `RootA`, then `Root`. -/
theorem nested_name_ancestor_chain_witness :
    ∃ rest, (⟨"Root", "z",
      [("RootAB", bD), ("RootA", aD), ("Root", c7rootDecl)]⟩ : ExpState).types =
      [("RootAB", bD), ("RootA", aD)] ++ rest :=
  nested_name_ancestor_chain strSchema 30 [bD, aD, c7rootDecl]
    ⟨"Root", "z", [("RootAB", bD), ("RootA", aD), ("Root", c7rootDecl)]⟩
    (by decide)
